import Mathlib

/-!
Verification of the network-toolkit probing and aggregation core
(`src/nettool.py`): the single-attempt ping wrapper `ping_once`, the retry
aggregator `ping_host`, the latest-per-host reduction used by `cmd_report`
and `cmd_export`, the report sort order, and the CSV export header
computation.  Machine integers are modelled as `Int`/`Nat`, parsed latency
values as exact rationals, dictionaries as insertion-ordered association
lists, and a Python exception escaping a function as `Except.error`.
-/

deriving instance DecidableEq for Except

/-- Outcome of one `subprocess.run` invocation of the external ping
command: the process completed with an exit code and captured
stdout/stderr, or the wait timed out (`subprocess.TimeoutExpired`), or the
process could not be launched at all (e.g. `FileNotFoundError` because the
command is missing). -/
inductive RunResult where
  | completed (returncode : Int) (stdout : String) (stderr : String)
  | timedOut
  | launchFailure
deriving DecidableEq

/-- The only exception kind the model tracks: a process-launch failure
escaping `ping_once` uncaught. -/
inductive LaunchError where
  | launchFailed
deriving DecidableEq

/-- Python `\s` on ASCII text: space, tab, newline, carriage return,
vertical tab, form feed. -/
def isPySpace (c : Char) : Bool :=
  c = ' ' || c = '\t' || c = '\n' || c = '\r' || c = '\x0b' || c = '\x0c'

/-- Case-insensitive match of a lowercase literal against the front of the
input; returns the remaining input on success. -/
def matchLowerLit : List Char → List Char → Option (List Char)
  | [], cs => some cs
  | _ :: _, [] => none
  | l :: ls, c :: cs => if c.toLower = l then matchLowerLit ls cs else none

/-- Attempt to match the latency pattern
`time[=<]?\s*(\d+(?:\.\d+)?)\s*ms` (case-insensitive) at the start of the
input, returning the characters of capture group 1 (the decimal numeral).
The greedy quantifiers of this pattern never need backtracking: after the
maximal run of digits the pattern continues with a non-digit, after
maximal whitespace it continues with a non-space, and dropping the
optional `[=<]` or `(?:\.\d+)?` can never rescue a failed continuation. -/
def latMatchAt (cs : List Char) : Option (List Char) :=
  match matchLowerLit ['t', 'i', 'm', 'e'] cs with
  | none => none
  | some cs1 =>
    let cs2 := match cs1 with
      | c :: rest => if c = '=' || c = '<' then rest else cs1
      | [] => cs1
    let cs3 := cs2.dropWhile isPySpace
    let d1 := cs3.takeWhile Char.isDigit
    let cs4 := cs3.dropWhile Char.isDigit
    if d1.isEmpty then none
    else
      match cs4 with
      | '.' :: cs5 =>
        let d2 := cs5.takeWhile Char.isDigit
        let cs6 := cs5.dropWhile Char.isDigit
        if d2.isEmpty then none
        else
          match matchLowerLit ['m', 's'] (cs6.dropWhile isPySpace) with
          | some _ => some (d1 ++ '.' :: d2)
          | none => none
      | _ =>
        match matchLowerLit ['m', 's'] (cs4.dropWhile isPySpace) with
        | some _ => some d1
        | none => none

/-- Model of `re.search` with `_LATENCY_RE`: try the pattern at every
position left to right, return the first capture. -/
def latSearch : List Char → Option (List Char)
  | [] => none
  | c :: rest =>
    match latMatchAt (c :: rest) with
    | some g => some g
    | none => latSearch rest

/-- Numeric value of a decimal digit character. -/
def digitVal (c : Char) : Nat := c.toNat - '0'.toNat

/-- Value of a string of decimal digits. -/
def natOfDigits (ds : List Char) : Nat :=
  ds.foldl (fun a c => 10 * a + digitVal c) 0

/-- Exact value of a captured numeral `\d+(?:\.\d+)?` (Python's
`float(m.group(1))`, idealised to the exact decimal value). -/
def ratOfCapture (g : List Char) : ℚ :=
  let ip := g.takeWhile Char.isDigit
  let rest := g.dropWhile Char.isDigit
  match rest with
  | '.' :: fp => mkRat (natOfDigits ip * 10 ^ fp.length + natOfDigits fp) (10 ^ fp.length)
  | _ => (natOfDigits ip : ℚ)

/-- Model of `ping_once` (src/nettool.py:165-188) applied to the outcome of its one
`subprocess.run` call.  On completion it reports
`(returncode == 0, parsed latency, returncode)`; on `TimeoutExpired` it
returns `(False, None, 124)`.  Any other exception — in particular a
process-launch failure — is not caught and propagates. -/
def pingOnce (res : RunResult) : Except LaunchError (Bool × Option ℚ × Int) :=
  match res with
  | .completed rc stdout stderr =>
    let out := stdout ++ "\n" ++ stderr
    .ok (decide (rc = 0), (latSearch out.data).map ratOfCapture, rc)
  | .timedOut => .ok (false, none, 124)
  | .launchFailure => .error .launchFailed

/-- One history record / result of `ping_host`: the dict
`{host, reachable, latency_ms, timestamp, raw_exit, attempts, successes}`.
`raw_exit` is `Option Int` because the Python local `last_rc` starts as
`None`. -/
structure Measurement where
  host : String
  reachable : Bool
  latency_ms : Option ℚ
  timestamp : String
  raw_exit : Option Int
  attempts : Int
  successes : Int
deriving DecidableEq

/-- Mutable locals of the `ping_host` loop. -/
structure LoopState where
  best : Option ℚ
  successes : Int
  last_rc : Option Int
deriving DecidableEq

/-- One iteration of the `ping_host` loop body on a returned attempt
`(ok, lat, rc)`: record `rc` as `last_rc`; on success increment
`successes` and lower `best` to `lat` when `lat` parsed and is smaller. -/
def pingStep (st : LoopState) (o : Bool × Option ℚ × Int) : LoopState :=
  let ok := o.1
  let lat := o.2.1
  let rc := o.2.2
  if ok then
    { best :=
        match lat, st.best with
        | some l, none => some l
        | some l, some b => if l < b then some l else some b
        | none, b => b,
      successes := st.successes + 1,
      last_rc := some rc }
  else
    { st with last_rc := some rc }

/-- The `ping_host` loop over a list of attempt indices: each index is one
`ping_once` call; an uncaught exception from `ping_once` aborts the loop
and propagates. -/
def runAttempts (probe : Nat → RunResult) : List Nat → LoopState → Except LaunchError LoopState
  | [], st => .ok st
  | i :: rest, st =>
    match pingOnce (probe i) with
    | .error e => .error e
    | .ok o => runAttempts probe rest (pingStep st o)

/-- Model of `ping_host` (src/nettool.py:190-210).  `probe host timeout_ms i` is
the external outcome of the `i`-th `ping_once host timeout_ms` call;
`now` is the timestamp string taken at completion. -/
def pingHost (probe : String → Int → Nat → RunResult) (host : String)
    (retries : Int) (timeout_ms : Int) (now : String) : Except LaunchError Measurement :=
  match runAttempts (fun i => probe host timeout_ms i)
      (List.range (max 1 retries).toNat) ⟨none, 0, none⟩ with
  | .error e => .error e
  | .ok st =>
    .ok { host := host,
          reachable := decide (0 < st.successes),
          latency_ms := st.best,
          timestamp := now,
          raw_exit := st.last_rc,
          attempts := max 1 retries,
          successes := st.successes }

/-- Parameters `(host, timeout_ms)` of the `ping_once` calls that
`ping_host` actually performs for a given index list: the loop stops at
the first call whose exception escapes. -/
def callsAux (probe : String → Int → Nat → RunResult) (host : String)
    (timeout_ms : Int) : List Nat → List (String × Int)
  | [] => []
  | i :: rest =>
    match pingOnce (probe host timeout_ms i) with
    | .error _ => [(host, timeout_ms)]
    | .ok _ => (host, timeout_ms) :: callsAux probe host timeout_ms rest

/-- The full call trace of one `ping_host` invocation. -/
def pingCallTrace (probe : String → Int → Nat → RunResult) (host : String)
    (retries : Int) (timeout_ms : Int) : List (String × Int) :=
  callsAux probe host timeout_ms (List.range (max 1 retries).toNat)

/-- The per-host loop of `cmd_scan` (src/nettool.py:227-232): hosts are
probed sequentially; an exception escaping `ping_host` aborts the scan
(the batch is never saved), so the result is all-or-nothing. -/
def scanBatch (probe : String → Int → Nat → RunResult) (hosts : List String)
    (retries : Int) (timeout_ms : Int) (now : String) :
    Except LaunchError (List Measurement) :=
  hosts.mapM (fun h => pingHost probe h retries timeout_ms now)

/-- Lookup of `latest[host]` in the insertion-ordered dict model. -/
def lookupHost : List (String × Measurement) → String → Option Measurement
  | [], _ => none
  | (k, v) :: t, h => if k = h then some v else lookupHost t h

/-- Assignment `latest[host] = r` in the insertion-ordered dict model: an
existing key keeps its position, a new key is appended. -/
def setHost : List (String × Measurement) → String → Measurement → List (String × Measurement)
  | [], h, r => [(h, r)]
  | (k, v) :: t, h, r => if k = h then (h, r) :: t else (k, v) :: setHost t h r

/-- One iteration of the latest-per-host loop
(src/nettool.py:246-250 and 279-283):
`if host not in latest or ts > latest[host]...: latest[host] = r`.
The overwrite happens only on a strictly greater timestamp string.
Python compares strings lexicographically by code point, which is the
lexicographic order on the strings' character lists. -/
def latestStep (acc : List (String × Measurement)) (r : Measurement) :
    List (String × Measurement) :=
  match lookupHost acc r.host with
  | none => setHost acc r.host r
  | some prev => if prev.timestamp.data < r.timestamp.data then setHost acc r.host r else acc

/-- The `latest` dict after the whole history has been processed. -/
def latestMap (hist : List Measurement) : List (String × Measurement) :=
  hist.foldl latestStep []

/-- Model of `list(latest.values())`: the latest-per-host rows, in
first-appearance order of the hosts. -/
def latestPerHost (hist : List Measurement) : List Measurement :=
  (latestMap hist).map Prod.snd

/-- Sort key of a report row (src/nettool.py:253):
`(not reachable, latency if not None else 1e9, host)`, compared
lexicographically as in Python tuple comparison. -/
def reportKey (r : Measurement) : Bool ×ₗ (ℚ ×ₗ List Char) :=
  toLex (!r.reachable, toLex (r.latency_ms.getD (1000000000 : ℚ), r.host.data))

/-- Python comparison of two report rows through their sort keys. -/
def rowLE (a b : Measurement) : Prop := reportKey a ≤ reportKey b

instance : DecidableRel rowLE := fun a b =>
  inferInstanceAs (Decidable (reportKey a ≤ reportKey b))

instance : IsTotal Measurement rowLE := ⟨fun a b => le_total (reportKey a) (reportKey b)⟩

instance : IsTrans Measurement rowLE :=
  ⟨fun _ _ _ h h' => le_trans (α := Bool ×ₗ (ℚ ×ₗ List Char)) h h'⟩

/-- Model of `rows.sort(key=...)` in `cmd_report`: a stable sort by `reportKey`
(Python's sort is stable; any stable sort produces the same list). -/
def sortRows (rows : List Measurement) : List Measurement :=
  List.insertionSort rowLE rows

/-- The fixed leading CSV columns (src/nettool.py:290). -/
def base_fields : List String :=
  ["host", "reachable", "latency_ms", "timestamp", "raw_exit"]

/-- CSV header of `cmd_export` (src/nettool.py:289-295) computed from the
key sets of the exported rows: the union of all keys is collected into a
set, sorted, and appended after `base_fields` with the base fields
filtered out.  A row is represented by the list of its dict keys. -/
def exportFieldnames (rowKeys : List (List String)) : List String :=
  let extra_fields := (rowKeys.foldl (fun acc ks => acc ++ ks) []).dedup
  base_fields ++
    (List.insertionSort (fun a b : String => a.data ≤ b.data) extra_fields).filter
      (fun k => !base_fields.contains k)

/-- Parsed latency of the `i`-th attempt when that attempt succeeded and
reported a parseable latency, `none` otherwise. -/
def attemptLat (probe : Nat → RunResult) (i : Nat) : Option ℚ :=
  match pingOnce (probe i) with
  | .ok (true, some l, _) => some l
  | _ => none

/-- Whether the `i`-th attempt returned and succeeded. -/
def attemptOk (probe : Nat → RunResult) (i : Nat) : Bool :=
  match pingOnce (probe i) with
  | .ok (true, _, _) => true
  | _ => false

/-- The latencies of the successful, parseable attempts of one `ping_host`
invocation, in attempt order. -/
def successLatencies (probe : String → Int → Nat → RunResult) (host : String)
    (retries : Int) (timeout_ms : Int) : List ℚ :=
  (List.range (max 1 retries).toNat).filterMap (attemptLat (fun i => probe host timeout_ms i))

/-- The number of successful attempts of one `ping_host` invocation. -/
def successCount (probe : String → Int → Nat → RunResult) (host : String)
    (retries : Int) (timeout_ms : Int) : Int :=
  (((List.range (max 1 retries).toNat).filter (attemptOk (fun i => probe host timeout_ms i))).length : Int)

/-- A probe for which the external ping command cannot be launched for
host `"a"` but works for every other host. -/
def launchFailProbeA : String → Int → Nat → RunResult :=
  fun h _ _ => if h = "a" then .launchFailure else .completed 0 "time=1 ms" ""

/-- The spec's `[5.0, none, 2.0]` attempt sequence: success with latency 5,
failure, success with latency 2. -/
def exampleProbeC4 : String → Int → Nat → RunResult :=
  fun _ _ i =>
    if i = 0 then .completed 0 "64 bytes from h: icmp_seq=1 ttl=64 time=5.0 ms" ""
    else if i = 1 then .completed 1 "" ""
    else .completed 0 "64 bytes from h: icmp_seq=3 ttl=64 time=2.0 ms" ""

/-- The measurement `ping_host` produces on the `[5.0, fail, 2.0]`
attempt sequence. -/
def exampleMeasC4 : Measurement :=
  { host := "h", reachable := true, latency_ms := some 2, timestamp := "t",
    raw_exit := some 0, attempts := 3, successes := 2 }

/-- The measurement `ping_host` produces when all 3 attempts time out. -/
def timeoutMeas : Measurement :=
  { host := "h", reachable := false, latency_ms := none, timestamp := "t",
    raw_exit := some 124, attempts := 3, successes := 0 }

/-- The characters a numeral's optional fractional part contributes to
the matched text: nothing, or a dot followed by the fractional digits. -/
def fracChars : Option (List Char) → List Char
  | none => []
  | some ds => '.' :: ds

instance : IsTotal String (fun a b : String => a.data ≤ b.data) :=
  ⟨fun a b => le_total a.data b.data⟩

instance : IsTrans String (fun a b : String => a.data ≤ b.data) :=
  ⟨fun _ _ _ h h' => le_trans h h'⟩

/-- Spec example report row: host A, unreachable. -/
def rowA : Measurement :=
  { host := "A", reachable := false, latency_ms := none,
    timestamp := "t", raw_exit := some 1, attempts := 1, successes := 0 }

/-- Spec example report row: host B, reachable with latency 5.0. -/
def rowB : Measurement :=
  { host := "B", reachable := true, latency_ms := some 5,
    timestamp := "t", raw_exit := some 0, attempts := 1, successes := 1 }

/-- Spec example report row: host C, reachable without a latency. -/
def rowC : Measurement :=
  { host := "C", reachable := true, latency_ms := none,
    timestamp := "t", raw_exit := some 0, attempts := 1, successes := 1 }

/-- A reachable row whose latency exceeds the `1e9` sentinel used for
missing latencies. -/
def rowBig : Measurement :=
  { host := "B", reachable := true, latency_ms := some (2000000000 : ℚ),
    timestamp := "t", raw_exit := some 0, attempts := 1, successes := 1 }

/-- Spec example history, host A at t=10. -/
def mA10 : Measurement :=
  { host := "A", reachable := true, latency_ms := some 3,
    timestamp := "2024-01-01T00:00:10Z", raw_exit := some 0, attempts := 1, successes := 1 }

/-- Spec example history, host B at t=5. -/
def mB5 : Measurement :=
  { host := "B", reachable := true, latency_ms := some 7,
    timestamp := "2024-01-01T00:00:05Z", raw_exit := some 0, attempts := 1, successes := 1 }

/-- Spec example history, host A at t=20. -/
def mA20 : Measurement :=
  { host := "A", reachable := false, latency_ms := none,
    timestamp := "2024-01-01T00:00:20Z", raw_exit := some 1, attempts := 1, successes := 0 }

/-- First of two measurements of the same host with equal timestamps. -/
def mT1 : Measurement :=
  { host := "h", reachable := true, latency_ms := some 1,
    timestamp := "2024-01-01T00:00:00Z", raw_exit := some 0, attempts := 1, successes := 1 }

/-- Second of two measurements of the same host with equal timestamps. -/
def mT2 : Measurement :=
  { host := "h", reachable := false, latency_ms := none,
    timestamp := "2024-01-01T00:00:00Z", raw_exit := some 1, attempts := 1, successes := 0 }

/-- Invariant of the latest-per-host loop after processing the records in
`seen`: the dict keys are distinct, every entry is keyed by its
measurement's host, holds a record from `seen` whose timestamp is maximal
among that host's records, and every seen host has an entry. -/
def LatestInv (seen : List Measurement) (acc : List (String × Measurement)) : Prop :=
  (acc.map Prod.fst).Nodup
  ∧ (∀ p ∈ acc, p.2.host = p.1 ∧ p.2 ∈ seen
      ∧ ∀ r ∈ seen, r.host = p.1 → r.timestamp.data ≤ p.2.timestamp.data)
  ∧ (∀ r ∈ seen, r.host ∈ acc.map Prod.fst)

theorem pingOnce_ok_of_ne_launchFailure (res : RunResult)
    (h : res ≠ RunResult.launchFailure) : ∃ a, pingOnce res = Except.ok a := by
  cases res with
  | completed rc o e => exact ⟨_, rfl⟩
  | timedOut => exact ⟨_, rfl⟩
  | launchFailure => exact absurd rfl h

theorem pingStep_last_rc (st : LoopState) (o : Bool × Option ℚ × Int) :
    (pingStep st o).last_rc = some o.2.2 := by
  rcases o with ⟨ok, lat, rc⟩
  cases ok <;> simp [pingStep]

theorem pingStep_best (st : LoopState) (o : Bool × Option ℚ × Int) :
    (pingStep st o).best =
      match o with
      | (true, some l, _) => some (st.best.elim l (min · l))
      | _ => st.best := by
  rcases o with ⟨ok, lat, rc⟩
  cases ok with
  | false => simp [pingStep]
  | true =>
    cases lat with
    | none => simp [pingStep]
    | some l =>
      cases hb : st.best with
      | none => simp [pingStep, hb]
      | some b =>
        rcases le_or_lt b l with h | h
        · simp [pingStep, hb, min_def, h, not_lt.2 h]
        · simp [pingStep, hb, min_def, h, not_le.2 h]

theorem pingStep_successes (st : LoopState) (o : Bool × Option ℚ × Int) :
    (pingStep st o).successes =
      match o with
      | (true, _, _) => st.successes + 1
      | _ => st.successes := by
  rcases o with ⟨ok, lat, rc⟩
  cases ok <;> simp [pingStep]

theorem runAttempts_isOk (probe : Nat → RunResult) (is : List Nat) :
    ∀ st, (∀ i ∈ is, probe i ≠ RunResult.launchFailure) →
      ∃ st', runAttempts probe is st = Except.ok st' := by
  induction is with
  | nil => exact fun st _ => ⟨st, rfl⟩
  | cons i rest ih =>
    intro st h
    obtain ⟨a, ha⟩ := pingOnce_ok_of_ne_launchFailure (probe i) (h i (by simp))
    obtain ⟨st', h2⟩ := ih (pingStep st a) (fun j hj => h j (by simp [hj]))
    exact ⟨st', by simp [runAttempts, ha, h2]⟩

theorem runAttempts_successes (probe : Nat → RunResult) (is : List Nat) :
    ∀ st st', runAttempts probe is st = Except.ok st' →
      st'.successes = st.successes + ((is.filter (attemptOk probe)).length : Int) := by
  induction is with
  | nil =>
    intro st st' h
    simp only [runAttempts] at h
    cases h
    simp
  | cons i rest ih =>
    intro st st' h
    cases ha : pingOnce (probe i) with
    | error e => simp [runAttempts, ha] at h
    | ok a =>
      simp only [runAttempts, ha] at h
      have := ih (pingStep st a) st' h
      rcases a with ⟨ok, lat, rc⟩
      cases ok with
      | false =>
        have hok : attemptOk probe i = false := by simp [attemptOk, ha]
        rw [this, pingStep_successes]
        simp [List.filter_cons, hok]
      | true =>
        have hok : attemptOk probe i = true := by simp [attemptOk, ha]
        rw [this, pingStep_successes]
        simp [List.filter_cons, hok]
        ring

theorem runAttempts_best (probe : Nat → RunResult) (is : List Nat) :
    ∀ st st', runAttempts probe is st = Except.ok st' →
      st'.best = (is.filterMap (attemptLat probe)).foldl
        (fun b l => some (b.elim l (min · l))) st.best := by
  induction is with
  | nil =>
    intro st st' h
    simp only [runAttempts] at h
    cases h
    simp
  | cons i rest ih =>
    intro st st' h
    cases ha : pingOnce (probe i) with
    | error e => simp [runAttempts, ha] at h
    | ok a =>
      simp only [runAttempts, ha] at h
      have := ih (pingStep st a) st' h
      rcases a with ⟨ok, lat, rc⟩
      cases ok with
      | false =>
        have hl : attemptLat probe i = none := by simp [attemptLat, ha]
        rw [this, pingStep_best]
        simp [List.filterMap_cons, hl]
      | true =>
        cases lat with
        | none =>
          have hl : attemptLat probe i = none := by simp [attemptLat, ha]
          rw [this, pingStep_best]
          simp [List.filterMap_cons, hl]
        | some l =>
          have hl : attemptLat probe i = some l := by simp [attemptLat, ha]
          rw [this, pingStep_best]
          simp [List.filterMap_cons, hl]

theorem runAttempts_last_rc (probe : Nat → RunResult) (is : List Nat) :
    ∀ st st', runAttempts probe is st = Except.ok st' →
      (is = [] ∧ st' = st) ∨
      (∃ i o, is.getLast? = some i ∧ pingOnce (probe i) = Except.ok o ∧
        st'.last_rc = some o.2.2) := by
  induction is with
  | nil =>
    intro st st' h
    simp only [runAttempts] at h
    cases h
    exact Or.inl ⟨rfl, rfl⟩
  | cons i rest ih =>
    intro st st' h
    cases ha : pingOnce (probe i) with
    | error e => simp [runAttempts, ha] at h
    | ok a =>
      simp only [runAttempts, ha] at h
      rcases ih (pingStep st a) st' h with ⟨hrest, hst⟩ | ⟨j, o, hj, ho, hrc⟩
      · subst hrest
        refine Or.inr ⟨i, a, by simp, ha, ?_⟩
        rw [hst, pingStep_last_rc]
      · have hne : rest ≠ [] := by
          intro hn
          rw [hn] at hj
          simp at hj
        refine Or.inr ⟨j, o, ?_, ho, hrc⟩
        rcases rest with _ | ⟨b, l⟩
        · exact absurd rfl hne
        · rw [List.getLast?_cons_cons]
          exact hj

theorem foldl_min_aux (t : List ℚ) :
    ∀ a : ℚ, t.foldl (fun b x => some (b.elim x (min · x))) (some a)
      = some (t.foldl min a) := by
  induction t with
  | nil => intro a; rfl
  | cons x t ih =>
    intro a
    simp only [List.foldl_cons, Option.elim]
    exact ih (min a x)

theorem foldl_min_none (l : List ℚ) :
    l.foldl (fun b x => some (b.elim x (min · x))) none = l.min? := by
  cases l with
  | nil => rfl
  | cons a t =>
    simp only [List.foldl_cons, Option.elim, List.min?]
    exact foldl_min_aux t a

theorem callsAux_eq_replicate (probe : String → Int → Nat → RunResult) (host : String)
    (timeout_ms : Int) (is : List Nat)
    (h : ∀ i ∈ is, probe host timeout_ms i ≠ RunResult.launchFailure) :
    callsAux probe host timeout_ms is = List.replicate is.length (host, timeout_ms) := by
  induction is with
  | nil => rfl
  | cons i rest ih =>
    obtain ⟨a, ha⟩ := pingOnce_ok_of_ne_launchFailure _ (h i (by simp))
    simp [callsAux, ha, List.replicate_succ, ih (fun j hj => h j (by simp [hj]))]

theorem toNat_max_one (retries : Int) : ((max 1 retries).toNat : Int) = max 1 retries := by
  have : (1 : Int) ≤ max 1 retries := le_max_left 1 retries
  omega

/-- C2 (counterexample): when the external ping command cannot be
launched, `ping_once` does not return a failed attempt — the exception
escapes, and a scan over several hosts aborts instead of continuing to
the next host. -/
theorem claim_C2_counterexample :
    pingOnce RunResult.launchFailure = Except.error LaunchError.launchFailed
    ∧ pingOnce RunResult.launchFailure ≠ Except.ok (false, none, 124)
    ∧ scanBatch launchFailProbeA ["a", "b"] 1 1000 "t"
        = Except.error LaunchError.launchFailed := by
  refine ⟨rfl, by decide, by decide⟩

/-- C2 (amended): `ping_once` catches only the timeout, which it turns
into the failed attempt `(False, None, 124)`; a process-launch failure is
the one condition that escapes it, and it aborts the surrounding scan
instead of letting the scan continue with the next host. -/
theorem claim_C2_launch_failure_raises :
    (∀ res : RunResult,
      pingOnce res = Except.error LaunchError.launchFailed ↔ res = RunResult.launchFailure)
    ∧ pingOnce RunResult.timedOut = Except.ok (false, none, 124)
    ∧ scanBatch launchFailProbeA ["a", "b"] 1 1000 "t"
        = Except.error LaunchError.launchFailed := by
  refine ⟨fun res => ?_, rfl, by decide⟩
  cases res with
  | completed rc o e => simp [pingOnce]
  | timedOut => simp [pingOnce]
  | launchFailure => simp [pingOnce]

/-- Witness for the amended C2 theorem at the concrete launch-failure
outcome. -/
theorem claim_C2_witness :
    pingOnce RunResult.launchFailure = Except.error LaunchError.launchFailed :=
  (claim_C2_launch_failure_raises.1 RunResult.launchFailure).mpr rfl

/-- C4: the measurement's `latency_ms` is the minimum latency among the
successful attempts that reported a parseable latency (absent when there
is none), and `successes` counts exactly the successful attempts. -/
theorem claim_C4_best_latency (probe : String → Int → Nat → RunResult) (host : String)
    (retries timeout_ms : Int) (now : String) (m : Measurement)
    (h : pingHost probe host retries timeout_ms now = Except.ok m) :
    m.latency_ms = (successLatencies probe host retries timeout_ms).min?
    ∧ m.successes = successCount probe host retries timeout_ms := by
  unfold pingHost at h
  cases hr : runAttempts (fun i => probe host timeout_ms i)
      (List.range (max 1 retries).toNat) ⟨none, 0, none⟩ with
  | error e => rw [hr] at h; cases h
  | ok st =>
    rw [hr] at h
    cases h
    constructor
    · have hb := runAttempts_best _ _ _ _ hr
      simp only at hb ⊢
      rw [hb, foldl_min_none]
      rfl
    · have hs := runAttempts_successes _ _ _ _ hr
      simp only at hs ⊢
      rw [hs]
      simp [successCount]

/-- Witness for C4 on the spec's `[5.0, fail, 2.0]` attempt sequence
(`latency_ms = 2.0`, `successes = 2`). -/
theorem claim_C4_witness :
    exampleMeasC4.latency_ms = (successLatencies exampleProbeC4 "h" 3 1000).min?
    ∧ exampleMeasC4.successes = successCount exampleProbeC4 "h" 3 1000 :=
  claim_C4_best_latency exampleProbeC4 "h" 3 1000 "t" exampleMeasC4 (by decide)

/-- C5: every measurement `ping_host` produces satisfies
`0 ≤ successes ≤ attempts` and `reachable == (successes > 0)`. -/
theorem claim_C5_invariant (probe : String → Int → Nat → RunResult) (host : String)
    (retries timeout_ms : Int) (now : String) (m : Measurement)
    (h : pingHost probe host retries timeout_ms now = Except.ok m) :
    0 ≤ m.successes ∧ m.successes ≤ m.attempts ∧ (m.reachable = true ↔ 0 < m.successes) := by
  unfold pingHost at h
  cases hr : runAttempts (fun i => probe host timeout_ms i)
      (List.range (max 1 retries).toNat) ⟨none, 0, none⟩ with
  | error e => rw [hr] at h; cases h
  | ok st =>
    rw [hr] at h
    cases h
    have hs := runAttempts_successes _ _ _ _ hr
    simp only at hs ⊢
    have hlen : ((List.range (max 1 retries).toNat).filter
        (attemptOk (fun i => probe host timeout_ms i))).length
        ≤ (max 1 retries).toNat := by
      have := List.length_filter_le (attemptOk (fun i => probe host timeout_ms i))
        (List.range (max 1 retries).toNat)
      simpa using this
    have htn := toNat_max_one retries
    refine ⟨by omega, by omega, ?_⟩
    simp [decide_eq_true_eq]

/-- Witness for C5 on a 3-attempt all-timeout run. -/
theorem claim_C5_witness :
    0 ≤ timeoutMeas.successes ∧ timeoutMeas.successes ≤ timeoutMeas.attempts
    ∧ (timeoutMeas.reachable = true ↔ 0 < timeoutMeas.successes) :=
  claim_C5_invariant (fun _ _ _ => RunResult.timedOut) "h" 3 1000 "t" timeoutMeas (by decide)

/-- C6 (counterexample): `ping_host` does not always perform
`max(1, retries)` calls — when the first attempt's process fails to
launch, the uncaught exception aborts the loop after a single
`ping_once` call, so with `retries = 3` only one call is performed, not
three. -/
theorem claim_C6_counterexample :
    pingCallTrace (fun _ _ _ => RunResult.launchFailure) "h" 3 1000 = [("h", 1000)]
    ∧ (pingCallTrace (fun _ _ _ => RunResult.launchFailure) "h" 3 1000).length
        ≠ (max 1 (3 : Int)).toNat
    ∧ pingHost (fun _ _ _ => RunResult.launchFailure) "h" 3 1000 "t2"
        = Except.error LaunchError.launchFailed := by decide

/-- C6 (amended): as long as every attempt's process launches (so no
`ping_once` call raises), `ping_host` performs exactly `max(1, retries)`
calls to `ping_once`, each with the same `(host, timeout_ms)`
parameters, and the measurement's `attempts` field equals that number;
for `retries = N ≥ 1` this number is `N`. -/
theorem claim_C6_call_count (probe : String → Int → Nat → RunResult) (host : String)
    (retries timeout_ms : Int) (now : String)
    (h : ∀ i, i < (max 1 retries).toNat → probe host timeout_ms i ≠ RunResult.launchFailure) :
    pingCallTrace probe host retries timeout_ms
      = List.replicate (max 1 retries).toNat (host, timeout_ms)
    ∧ (pingCallTrace probe host retries timeout_ms).length = (max 1 retries).toNat
    ∧ (∃ m, pingHost probe host retries timeout_ms now = Except.ok m
        ∧ m.attempts = max 1 retries)
    ∧ (1 ≤ retries → (max 1 retries : Int) = retries) := by
  have h' : ∀ i ∈ List.range (max 1 retries).toNat,
      probe host timeout_ms i ≠ RunResult.launchFailure := by
    intro i hi
    exact h i (List.mem_range.mp hi)
  have htrace := callsAux_eq_replicate probe host timeout_ms _ h'
  refine ⟨?_, ?_, ?_, fun hr => max_eq_right hr⟩
  · simpa [pingCallTrace] using htrace
  · simp [pingCallTrace, htrace]
  · obtain ⟨st, hst⟩ := runAttempts_isOk (fun i => probe host timeout_ms i) _ ⟨none, 0, none⟩ h'
    refine ⟨{ host := host, reachable := decide (0 < st.successes),
              latency_ms := st.best, timestamp := now, raw_exit := st.last_rc,
              attempts := max 1 retries, successes := st.successes }, ?_, rfl⟩
    unfold pingHost
    rw [hst]

/-- Witness for C6 with three timing-out attempts. -/
theorem claim_C6_witness :
    pingCallTrace (fun _ _ _ => RunResult.timedOut) "h" 3 1000
      = List.replicate 3 ("h", 1000)
    ∧ (pingCallTrace (fun _ _ _ => RunResult.timedOut) "h" 3 1000).length = 3
    ∧ (∃ m, pingHost (fun _ _ _ => RunResult.timedOut) "h" 3 1000 "t" = Except.ok m
        ∧ m.attempts = max 1 3)
    ∧ (1 ≤ (3 : Int) → (max 1 (3 : Int) : Int) = 3) := by
  have := claim_C6_call_count (fun _ _ _ => RunResult.timedOut) "h" 3 1000 "t" (by decide)
  simpa using this

/-- C7 (counterexample): `ping_host` can raise — if an attempt's process
fails to launch, the exception propagates out of `ping_host`. -/
theorem claim_C7_counterexample :
    pingHost (fun _ _ _ => RunResult.launchFailure) "h" 3 1000 "t"
      = Except.error LaunchError.launchFailed := by decide

/-- C7 (amended): provided every attempt's `ping_once` returns (no
process-launch failure), `ping_host` returns a normal measurement even
when every attempt fails: `reachable=false`, `latency_ms` absent,
`successes=0`, and `raw_exit` is the last attempt's exit code (`124` when
the last attempt timed out). -/
theorem claim_C7_all_fail (probe : String → Int → Nat → RunResult) (host : String)
    (retries timeout_ms : Int) (now : String)
    (hfail : ∀ i, i < (max 1 retries).toNat →
      ∃ lat rc, pingOnce (probe host timeout_ms i) = Except.ok (false, lat, rc)) :
    ∃ m, pingHost probe host retries timeout_ms now = Except.ok m
      ∧ m.reachable = false ∧ m.latency_ms = none ∧ m.successes = 0
      ∧ ∀ lat rc, pingOnce (probe host timeout_ms ((max 1 retries).toNat - 1))
          = Except.ok (false, lat, rc) → m.raw_exit = some rc := by
  have hn : 1 ≤ (max 1 retries).toNat := by
    have := toNat_max_one retries
    omega
  have h' : ∀ i ∈ List.range (max 1 retries).toNat,
      probe host timeout_ms i ≠ RunResult.launchFailure := by
    intro i hi hlf
    obtain ⟨lat, rc, hp⟩ := hfail i (List.mem_range.mp hi)
    rw [hlf] at hp
    cases hp
  obtain ⟨st, hst⟩ := runAttempts_isOk (fun i => probe host timeout_ms i) _ ⟨none, 0, none⟩ h'
  have hsucc := runAttempts_successes _ _ _ _ hst
  have hbest := runAttempts_best _ _ _ _ hst
  have hfilter : (List.range (max 1 retries).toNat).filter
      (attemptOk (fun i => probe host timeout_ms i)) = [] := by
    rw [List.filter_eq_nil_iff]
    intro i hi hok
    obtain ⟨lat, rc, hp⟩ := hfail i (List.mem_range.mp hi)
    simp [attemptOk, hp] at hok
  have hfm : (List.range (max 1 retries).toNat).filterMap
      (attemptLat (fun i => probe host timeout_ms i)) = [] := by
    rw [List.filterMap_eq_nil_iff]
    intro i hi
    obtain ⟨lat, rc, hp⟩ := hfail i (List.mem_range.mp hi)
    simp [attemptLat, hp]
  rw [hfilter] at hsucc
  rw [hfm] at hbest
  simp only [List.length_nil, List.foldl_nil, Nat.cast_zero, add_zero] at hsucc hbest
  refine ⟨_, by unfold pingHost; rw [hst], ?_, ?_, ?_, ?_⟩
  · simp [hsucc]
  · simpa using hbest
  · simpa using hsucc
  · intro lat rc hrc
    rcases runAttempts_last_rc _ _ _ _ hst with ⟨hemp, _⟩ | ⟨i, o, hi, ho, hlast⟩
    · rw [List.range_eq_nil] at hemp
      omega
    · rw [List.getLast?_range] at hi
      have hne : (max 1 retries).toNat ≠ 0 := by omega
      rw [if_neg hne] at hi
      cases hi
      rw [hrc] at ho
      cases ho
      simpa using hlast

/-- Witness for the amended C7 theorem: two timing-out attempts. -/
theorem claim_C7_witness :
    ∃ m, pingHost (fun _ _ _ => RunResult.timedOut) "h" 2 1000 "t" = Except.ok m
      ∧ m.reachable = false ∧ m.latency_ms = none ∧ m.successes = 0
      ∧ ∀ lat rc, pingOnce ((fun _ _ _ => RunResult.timedOut) "h" 1000 ((max 1 (2 : Int)).toNat - 1))
          = Except.ok (false, lat, rc) → m.raw_exit = some rc :=
  claim_C7_all_fail (fun _ _ _ => RunResult.timedOut) "h" 2 1000 "t"
    (fun _ _ => ⟨none, 124, rfl⟩)

theorem lookupHost_eq_none {acc : List (String × Measurement)} {h : String} :
    lookupHost acc h = none ↔ h ∉ acc.map Prod.fst := by
  induction acc with
  | nil => simp [lookupHost]
  | cons p t ih =>
    rcases p with ⟨k, v⟩
    by_cases hk : k = h
    · subst hk
      simp [lookupHost]
    · rw [lookupHost, if_neg hk, ih]
      simp only [List.map_cons, List.mem_cons]
      constructor
      · intro hh hor
        rcases hor with he | hm
        · exact hk he.symm
        · exact hh hm
      · intro hh hm
        exact hh (Or.inr hm)

theorem lookupHost_mem {acc : List (String × Measurement)} {h : String} {v : Measurement} :
    lookupHost acc h = some v → (h, v) ∈ acc := by
  induction acc with
  | nil => intro hx; simp [lookupHost] at hx
  | cons p t ih =>
    rcases p with ⟨k, w⟩
    by_cases hk : k = h
    · subst hk
      intro hx
      simp [lookupHost] at hx
      simp [hx]
    · intro hx
      rw [lookupHost, if_neg hk] at hx
      exact List.mem_cons_of_mem _ (ih hx)

theorem setHost_not_mem {acc : List (String × Measurement)} {h : String} {r : Measurement}
    (hn : h ∉ acc.map Prod.fst) : setHost acc h r = acc ++ [(h, r)] := by
  induction acc with
  | nil => rfl
  | cons p t ih =>
    rcases p with ⟨k, v⟩
    simp only [List.map_cons, List.mem_cons] at hn
    push_neg at hn
    rw [setHost, if_neg (fun e => hn.1 e.symm), ih hn.2]
    rfl

theorem setHost_map_fst_of_mem {acc : List (String × Measurement)} {h : String}
    {r : Measurement} (hm : h ∈ acc.map Prod.fst) :
    (setHost acc h r).map Prod.fst = acc.map Prod.fst := by
  induction acc with
  | nil => simp at hm
  | cons p t ih =>
    rcases p with ⟨k, v⟩
    by_cases hk : k = h
    · subst hk
      rw [setHost, if_pos rfl]
      rfl
    · simp only [List.map_cons, List.mem_cons] at hm
      rcases hm with hm | hm
      · exact absurd hm.symm hk
      · rw [setHost, if_neg hk]
        simp [ih hm]

theorem mem_setHost_of_mem {acc : List (String × Measurement)} {h : String} {r : Measurement}
    (hnd : (acc.map Prod.fst).Nodup) :
    ∀ p ∈ setHost acc h r, p = (h, r) ∨ (p ∈ acc ∧ p.1 ≠ h) := by
  induction acc with
  | nil =>
    intro p hp
    rw [setHost] at hp
    simp at hp
    exact Or.inl hp
  | cons q t ih =>
    rcases q with ⟨k, v⟩
    simp only [List.map_cons, List.nodup_cons] at hnd
    intro p hp
    by_cases hk : k = h
    · subst hk
      rw [setHost, if_pos rfl] at hp
      rcases List.mem_cons.mp hp with hp | hp
      · exact Or.inl hp
      · refine Or.inr ⟨List.mem_cons_of_mem _ hp, ?_⟩
        intro he
        exact hnd.1 (he ▸ List.mem_map.mpr ⟨p, hp, rfl⟩)
    · rw [setHost, if_neg hk] at hp
      rcases List.mem_cons.mp hp with hp | hp
      · subst hp
        exact Or.inr ⟨List.mem_cons_self _ _, hk⟩
      · rcases ih hnd.2 p hp with hp' | ⟨hp', hne⟩
        · exact Or.inl hp'
        · exact Or.inr ⟨List.mem_cons_of_mem _ hp', hne⟩

theorem mem_unique_of_nodup {acc : List (String × Measurement)}
    (hnd : (acc.map Prod.fst).Nodup) {h : String} {v w : Measurement} :
    (h, v) ∈ acc → (h, w) ∈ acc → v = w := by
  induction acc with
  | nil => intro hv; simp at hv
  | cons q t ih =>
    rcases q with ⟨k, u⟩
    simp only [List.map_cons, List.nodup_cons] at hnd
    intro hv hw
    rcases List.mem_cons.mp hv with hv1 | hv2 <;> rcases List.mem_cons.mp hw with hw1 | hw2
    · cases hv1
      injection hw1 with h1 h2
      exact h2.symm
    · cases hv1
      exact absurd (List.mem_map.mpr ⟨(h, w), hw2, rfl⟩ : h ∈ List.map Prod.fst t) hnd.1
    · cases hw1
      exact absurd (List.mem_map.mpr ⟨(h, v), hv2, rfl⟩ : h ∈ List.map Prod.fst t) hnd.1
    · exact ih hnd.2 hv2 hw2

theorem latestStep_inv {seen : List Measurement} {acc : List (String × Measurement)}
    {m : Measurement} (h : LatestInv seen acc) :
    LatestInv (seen ++ [m]) (latestStep acc m) := by
  obtain ⟨hnd, hent, hcov⟩ := h
  cases hl : lookupHost acc m.host with
  | none =>
    have hnm : m.host ∉ acc.map Prod.fst := lookupHost_eq_none.mp hl
    have hstep : latestStep acc m = acc ++ [(m.host, m)] := by
      rw [latestStep, hl, setHost_not_mem hnm]
    rw [hstep]
    refine ⟨?_, ?_, ?_⟩
    · rw [List.map_append]
      simp only [List.map_cons, List.map_nil]
      rw [List.nodup_append]
      exact ⟨hnd, List.nodup_singleton _, by simpa using hnm⟩
    · intro p hp
      rcases List.mem_append.mp hp with hpa | hpm
      · obtain ⟨h1, h2, h3⟩ := hent p hpa
        refine ⟨h1, List.mem_append_left _ h2, ?_⟩
        intro r hr hrh
        rcases List.mem_append.mp hr with hrs | hrm
        · exact h3 r hrs hrh
        · have hrm' : r = m := by simpa using hrm
          subst hrm'
          exact absurd (hrh ▸ (List.mem_map.mpr ⟨p, hpa, rfl⟩)) hnm
      · have hpm' : p = (m.host, m) := by simpa using hpm
        subst hpm'
        refine ⟨rfl, List.mem_append_right _ (by simp), ?_⟩
        intro r hr hrh
        rcases List.mem_append.mp hr with hrs | hrm
        · have hrh' : r.host = m.host := hrh
          exact absurd (hrh' ▸ hcov r hrs) hnm
        · have hrm' : r = m := by simpa using hrm
          subst hrm'
          exact le_refl _
    · intro r hr
      rw [List.map_append]
      rcases List.mem_append.mp hr with hrs | hrm
      · exact List.mem_append_left _ (hcov r hrs)
      · have hrm' : r = m := by simpa using hrm
        subst hrm'
        exact List.mem_append_right _ (by simp)
  | some prev =>
    have hprevmem : (m.host, prev) ∈ acc := lookupHost_mem hl
    have hkeymem : m.host ∈ acc.map Prod.fst :=
      List.mem_map.mpr ⟨(m.host, prev), hprevmem, rfl⟩
    obtain ⟨hph, hpseen, hpmax⟩ := hent _ hprevmem
    by_cases hts : prev.timestamp.data < m.timestamp.data
    · have hstep : latestStep acc m = setHost acc m.host m := by
        unfold latestStep
        rw [hl]
        exact if_pos hts
      rw [hstep]
      refine ⟨?_, ?_, ?_⟩
      · rw [setHost_map_fst_of_mem hkeymem]
        exact hnd
      · intro p hp
        rcases mem_setHost_of_mem hnd p hp with hpr | ⟨hpa, hpne⟩
        · subst hpr
          refine ⟨rfl, List.mem_append_right _ (by simp), ?_⟩
          intro r hr hrh
          rcases List.mem_append.mp hr with hrs | hrm
          · exact le_of_lt (lt_of_le_of_lt (hpmax r hrs hrh) hts)
          · have hrm' : r = m := by simpa using hrm
            subst hrm'
            exact le_refl _
        · obtain ⟨h1, h2, h3⟩ := hent p hpa
          refine ⟨h1, List.mem_append_left _ h2, ?_⟩
          intro r hr hrh
          rcases List.mem_append.mp hr with hrs | hrm
          · exact h3 r hrs hrh
          · have hrm' : r = m := by simpa using hrm
            subst hrm'
            exact absurd hrh.symm hpne
      · intro r hr
        rw [setHost_map_fst_of_mem hkeymem]
        rcases List.mem_append.mp hr with hrs | hrm
        · exact hcov r hrs
        · have hrm' : r = m := by simpa using hrm
          subst hrm'
          exact hkeymem
    · have hstep : latestStep acc m = acc := by
        unfold latestStep
        rw [hl]
        exact if_neg hts
      rw [hstep]
      refine ⟨hnd, ?_, ?_⟩
      · intro p hp
        obtain ⟨h1, h2, h3⟩ := hent _ hp
        refine ⟨h1, List.mem_append_left _ h2, ?_⟩
        intro r hr hrh
        rcases List.mem_append.mp hr with hrs | hrm
        · exact h3 r hrs hrh
        · have hrm' : r = m := by simpa using hrm
          have hpacc : (m.host, p.2) ∈ acc := by
            have hp1 : p.1 = m.host := by rw [← hrm']; exact hrh.symm
            rw [← hp1]
            simpa using hp
          have hp2 : p.2 = prev := mem_unique_of_nodup hnd hpacc hprevmem
          rw [hrm', hp2]
          exact not_lt.mp hts
      · intro r hr
        rcases List.mem_append.mp hr with hrs | hrm
        · exact hcov r hrs
        · have hrm' : r = m := by simpa using hrm
          subst hrm'
          exact hkeymem

theorem foldl_latestStep_inv (hist : List Measurement) :
    ∀ (seen : List Measurement) (acc : List (String × Measurement)),
      LatestInv seen acc → LatestInv (seen ++ hist) (List.foldl latestStep acc hist) := by
  induction hist with
  | nil => intro seen acc h; simpa using h
  | cons m t ih =>
    intro seen acc h
    have := ih (seen ++ [m]) (latestStep acc m) (latestStep_inv h)
    simpa [List.append_assoc] using this

theorem latestMap_inv (hist : List Measurement) : LatestInv hist (latestMap hist) := by
  have h0 : LatestInv [] ([] : List (String × Measurement)) := by
    refine ⟨List.nodup_nil, ?_, ?_⟩ <;> intro r hr <;> simp at hr
  have := foldl_latestStep_inv hist [] [] h0
  simpa [latestMap] using this

/-- C1 (counterexample): two measurements of the same host with equal
timestamp strings — the reduction keeps the *first*-encountered record,
not the later one. -/
theorem claim_C1_counterexample :
    mT1.host = mT2.host ∧ mT1.timestamp = mT2.timestamp ∧ mT1 ≠ mT2
    ∧ latestPerHost [mT1, mT2] = [mT1] := by decide

/-- C1 (amended): the reduction overwrites an existing entry only on a
strictly greater timestamp string, so a later record whose timestamp is
equal (or smaller) leaves the kept record unchanged — on ties the
first-encountered record wins. -/
theorem claim_C1_tie_keeps_first (hist : List Measurement) (m prev : Measurement)
    (hl : lookupHost (latestMap hist) m.host = some prev)
    (hts : ¬ prev.timestamp.data < m.timestamp.data) :
    latestMap (hist ++ [m]) = latestMap hist := by
  have hconcat : latestMap (hist ++ [m]) = latestStep (latestMap hist) m := by
    unfold latestMap
    rw [List.foldl_append]
    rfl
  rw [hconcat]
  unfold latestStep
  rw [hl]
  exact if_neg hts

/-- Witness for the amended C1 theorem on the concrete equal-timestamp
pair. -/
theorem claim_C1_witness : latestMap [mT1, mT2] = latestMap [mT1] :=
  claim_C1_tie_keeps_first [mT1] mT2 mT1 (by decide) (by decide)

/-- C3: the latest-per-host reduction yields exactly one measurement per
distinct host of the history, each taken from the history and carrying
the lexicographically greatest timestamp string among that host's
records. -/
theorem claim_C3_latest_per_host (hist : List Measurement) :
    ((latestPerHost hist).map Measurement.host).Nodup
    ∧ (∀ h, h ∈ (latestPerHost hist).map Measurement.host ↔ h ∈ hist.map Measurement.host)
    ∧ (∀ m ∈ latestPerHost hist, m ∈ hist
        ∧ ∀ r ∈ hist, r.host = m.host → r.timestamp.data ≤ m.timestamp.data) := by
  obtain ⟨hnd, hent, hcov⟩ := latestMap_inv hist
  have hmap : (latestPerHost hist).map Measurement.host = (latestMap hist).map Prod.fst := by
    unfold latestPerHost
    rw [List.map_map]
    exact List.map_congr_left (fun p hp => (hent p hp).1)
  refine ⟨hmap ▸ hnd, ?_, ?_⟩
  · intro h
    rw [hmap]
    constructor
    · intro hh
      obtain ⟨p, hp, he⟩ := List.mem_map.mp hh
      obtain ⟨h1, h2, _⟩ := hent p hp
      exact List.mem_map.mpr ⟨p.2, h2, by rw [h1, he]⟩
    · intro hh
      obtain ⟨r, hr, he⟩ := List.mem_map.mp hh
      exact he ▸ hcov r hr
  · intro m hm
    obtain ⟨p, hp, he⟩ := List.mem_map.mp hm
    obtain ⟨h1, h2, h3⟩ := hent p hp
    subst he
    exact ⟨h2, fun r hr hrh => h3 r hr (hrh.trans h1)⟩

/-- Witness for C3: on the spec's example history, host `A` appears in
the reduction. -/
theorem claim_C3_witness :
    ("A" : String) ∈ (latestPerHost [mA10, mB5, mA20]).map Measurement.host :=
  ((claim_C3_latest_per_host [mA10, mB5, mA20]).2.1 "A").mpr (by decide)

theorem rowLE_iff (a b : Measurement) :
    rowLE a b ↔
      ((a.reachable = true ∧ b.reachable = false)
        ∨ (a.reachable = b.reachable
          ∧ (a.latency_ms.getD 1000000000 < b.latency_ms.getD 1000000000
            ∨ (a.latency_ms.getD 1000000000 = b.latency_ms.getD 1000000000
              ∧ a.host.data ≤ b.host.data)))) := by
  unfold rowLE reportKey
  rw [Prod.Lex.le_iff, Prod.Lex.le_iff]
  cases ha : a.reachable <;> cases hb : b.reachable <;> simp [Bool.lt_iff]

/-- C8 (counterexample): a reachable host whose latency exceeds the
`1e9` sentinel sorts *after* a reachable host with no latency, so
reachable hosts without a latency do not always come last among the
reachable rows. -/
theorem claim_C8_counterexample :
    rowBig.reachable = true ∧ rowC.reachable = true ∧ rowC.latency_ms = none
    ∧ sortRows [rowBig, rowC] = [rowC, rowBig] := by decide

/-- C8 (amended): the report sort is a stable sort by the key
`(not reachable, latency or 1e9, host)`: the output is a permutation of
the rows, sorted by that key; reachable rows come first, then ascending
by latency with a missing latency treated as exactly `1e9` (so a
missing-latency row comes last among reachable rows only when every
actual latency is below `1e9`), then ascending by host name; two rows
compare equal only when all three key components (in particular the host
name) coincide. -/
theorem claim_C8_report_sort (rows : List Measurement) :
    (sortRows rows).Perm rows
    ∧ List.Sorted rowLE (sortRows rows)
    ∧ (∀ a b : Measurement, rowLE a b ↔
        ((a.reachable = true ∧ b.reachable = false)
          ∨ (a.reachable = b.reachable
            ∧ (a.latency_ms.getD 1000000000 < b.latency_ms.getD 1000000000
              ∨ (a.latency_ms.getD 1000000000 = b.latency_ms.getD 1000000000
                ∧ a.host.data ≤ b.host.data)))))
    ∧ (∀ a b : Measurement, reportKey a = reportKey b →
        a.reachable = b.reachable
        ∧ a.latency_ms.getD 1000000000 = b.latency_ms.getD 1000000000
        ∧ a.host = b.host) := by
  refine ⟨List.perm_insertionSort rowLE rows, List.sorted_insertionSort rowLE rows,
    fun a b => rowLE_iff a b, fun a b h => ?_⟩
  unfold reportKey at h
  rw [toLex_inj] at h
  obtain ⟨h1, h2⟩ := Prod.mk.injEq .. ▸ h
  rw [toLex_inj] at h2
  obtain ⟨h3, h4⟩ := Prod.mk.injEq .. ▸ h2
  exact ⟨Bool.not_inj h1, h3, String.ext h4⟩

/-- Witness for the amended C8 theorem: the reachable row B with latency
5.0 sorts no later than the unreachable row A. -/
theorem claim_C8_witness : rowLE rowB rowA :=
  ((claim_C8_report_sort [rowA, rowB, rowC]).2.2.1 rowB rowA).mpr (by decide)

theorem foldl_append_eq_flatten (L : List (List String)) :
    ∀ acc : List String, L.foldl (fun a ks => a ++ ks) acc = acc ++ L.flatten := by
  induction L with
  | nil => intro acc; simp
  | cons ks t ih =>
    intro acc
    rw [List.foldl_cons, ih, List.flatten_cons, List.append_assoc]

/-- C9: the export header starts with the five fixed columns in order,
followed by exactly the other keys present in the exported rows — each
once, in strictly ascending lexicographic order, excluding keys already
among the fixed columns; keys absent from every row do not appear. -/
theorem claim_C9_export_header (rowKeys : List (List String)) :
    (exportFieldnames rowKeys).take 5 = base_fields
    ∧ List.Sorted (fun a b : String => a.data < b.data) ((exportFieldnames rowKeys).drop 5)
    ∧ (∀ k, k ∈ (exportFieldnames rowKeys).drop 5 ↔
        ((∃ ks ∈ rowKeys, k ∈ ks) ∧ k ∉ base_fields)) := by
  have hlen : base_fields.length = 5 := rfl
  have hsplit : exportFieldnames rowKeys = base_fields ++
      (List.insertionSort (fun a b : String => a.data ≤ b.data)
        ((rowKeys.foldl (fun acc ks => acc ++ ks) []).dedup)).filter
        (fun k => !base_fields.contains k) := rfl
  have htake : (exportFieldnames rowKeys).take 5 = base_fields := by
    rw [hsplit]
    exact List.take_left' hlen
  have hdrop : (exportFieldnames rowKeys).drop 5 =
      (List.insertionSort (fun a b : String => a.data ≤ b.data)
        ((rowKeys.foldl (fun acc ks => acc ++ ks) []).dedup)).filter
        (fun k => !base_fields.contains k) := by
    rw [hsplit]
    exact List.drop_left' hlen
  have hsorted : List.Sorted (fun a b : String => a.data ≤ b.data)
      (List.insertionSort (fun a b : String => a.data ≤ b.data)
        ((rowKeys.foldl (fun acc ks => acc ++ ks) []).dedup)) :=
    List.sorted_insertionSort _ _
  have hnodup : (List.insertionSort (fun a b : String => a.data ≤ b.data)
      ((rowKeys.foldl (fun acc ks => acc ++ ks) []).dedup)).Nodup :=
    (List.perm_insertionSort _ _).nodup_iff.mpr (List.nodup_dedup _)
  refine ⟨htake, ?_, ?_⟩
  · rw [hdrop]
    have hps : List.Pairwise (fun a b : String => a.data ≤ b.data)
        ((List.insertionSort (fun a b : String => a.data ≤ b.data)
          ((rowKeys.foldl (fun acc ks => acc ++ ks) []).dedup)).filter
          (fun k => !base_fields.contains k)) :=
      List.Pairwise.sublist (List.filter_sublist _) hsorted
    have hpn : List.Pairwise (fun a b : String => a ≠ b)
        ((List.insertionSort (fun a b : String => a.data ≤ b.data)
          ((rowKeys.foldl (fun acc ks => acc ++ ks) []).dedup)).filter
          (fun k => !base_fields.contains k)) :=
      hnodup.filter _
    refine (hps.and hpn).imp ?_
    rintro a b ⟨hle, hne⟩
    rcases lt_or_eq_of_le hle with hlt | he
    · exact hlt
    · exact absurd (String.ext he) hne
  · intro k
    rw [hdrop, List.mem_filter,
      (List.perm_insertionSort (fun a b : String => a.data ≤ b.data) _).mem_iff,
      List.mem_dedup, foldl_append_eq_flatten, List.nil_append, List.mem_flatten]
    constructor
    · rintro ⟨⟨ks, hks, hkk⟩, hb⟩
      exact ⟨⟨ks, hks, hkk⟩, by simpa using hb⟩
    · rintro ⟨⟨ks, hks, hkk⟩, hb⟩
      exact ⟨⟨ks, hks, hkk⟩, by simpa using hb⟩

/-- Witness for C9: a history with an `attempts` key exports it as a
trailing column. -/
theorem claim_C9_witness :
    ("attempts" : String) ∈ (exportFieldnames [["host", "attempts"], ["host", "successes"]]).drop 5 :=
  ((claim_C9_export_header [["host", "attempts"], ["host", "successes"]]).2.2 "attempts").mpr
    (by decide)

example : exportFieldnames
    [["host", "reachable", "latency_ms", "timestamp", "raw_exit", "successes", "attempts"],
     ["host"]] = base_fields ++ ["attempts", "successes"] := by decide

example : exportFieldnames [["host", "reachable"]] = base_fields := by decide

example : sortRows [rowA, rowB, rowC] = [rowB, rowC, rowA] := by decide

example : latestPerHost [mA10, mB5, mA20] = [mA20, mB5] := by decide

theorem isPySpace_eq_false_of_isDigit {c : Char} (h : c.isDigit = true) :
    isPySpace c = false := by
  have h1 : c ≠ ' ' := by rintro rfl; exact absurd h (by decide)
  have h2 : c ≠ '\t' := by rintro rfl; exact absurd h (by decide)
  have h3 : c ≠ '\n' := by rintro rfl; exact absurd h (by decide)
  have h4 : c ≠ '\r' := by rintro rfl; exact absurd h (by decide)
  have h5 : c ≠ '\x0b' := by rintro rfl; exact absurd h (by decide)
  have h6 : c ≠ '\x0c' := by rintro rfl; exact absurd h (by decide)
  simp [isPySpace, h1, h2, h3, h4, h5, h6]

theorem takeWhile_digits_append (ds rest : List Char) (hds : ∀ c ∈ ds, c.isDigit = true)
    (hre : ∀ c, rest.head? = some c → c.isDigit = false) :
    (ds ++ rest).takeWhile Char.isDigit = ds
    ∧ (ds ++ rest).dropWhile Char.isDigit = rest := by
  induction ds with
  | nil =>
    simp only [List.nil_append]
    cases rest with
    | nil => simp
    | cons c t =>
      have hc := hre c rfl
      simp [List.takeWhile_cons, List.dropWhile_cons, hc]
  | cons d ds ih =>
    have hd := hds d (by simp)
    have ih' := ih (fun c hc => hds c (by simp [hc]))
    simp [List.takeWhile_cons, List.dropWhile_cons, hd, ih'.1, ih'.2]

theorem matchLowerLit_time (rest : List Char) :
    matchLowerLit ['t', 'i', 'm', 'e'] ('t' :: 'i' :: 'm' :: 'e' :: rest) = some rest := rfl

theorem matchLowerLit_ms (rest : List Char) :
    matchLowerLit ['m', 's'] ('m' :: 's' :: rest) = some rest := rfl

theorem latMatchAt_numeral (sep : Char) (ip : List Char) (fp : Option (List Char))
    (suffix : List Char) (hsep : sep = '=' ∨ sep = '<')
    (hip : ip ≠ []) (hipd : ∀ c ∈ ip, c.isDigit = true)
    (hfp : ∀ ds, fp = some ds → ds ≠ [] ∧ ∀ c ∈ ds, c.isDigit = true) :
    latMatchAt ('t' :: 'i' :: 'm' :: 'e' :: sep ::
        (ip ++ fracChars fp ++ (' ' :: 'm' :: 's' :: suffix)))
      = some (ip ++ fracChars fp) := by
  obtain ⟨d, ip', rfl⟩ : ∃ d ip', ip = d :: ip' := by
    cases ip with
    | nil => exact absurd rfl hip
    | cons d t => exact ⟨d, t, rfl⟩
  have hsepb : (sep = '=' || sep = '<') = true := by
    rcases hsep with rfl | rfl <;> decide
  have hd0 : isPySpace d = false := isPySpace_eq_false_of_isDigit (hipd d (by simp))
  have hsplit := takeWhile_digits_append (d :: ip')
    (fracChars fp ++ (' ' :: 'm' :: 's' :: suffix))
    hipd (by
      intro c hc
      cases fp with
      | none =>
        simp [fracChars] at hc
        rw [← hc]
        decide
      | some ds =>
        simp [fracChars] at hc
        rw [← hc]
        decide)
  have hws : ∀ t : List Char,
      List.dropWhile isPySpace (' ' :: 'm' :: 's' :: t) = 'm' :: 's' :: t := by
    intro t
    simp [List.dropWhile_cons, isPySpace]
  rw [latMatchAt, matchLowerLit_time]
  simp only [hsepb, if_true]
  simp only [List.cons_append, List.append_assoc] at hsplit ⊢
  have hdw : List.dropWhile isPySpace
      (d :: (ip' ++ (fracChars fp ++ ' ' :: 'm' :: 's' :: suffix)))
      = d :: (ip' ++ (fracChars fp ++ ' ' :: 'm' :: 's' :: suffix)) := by
    rw [List.dropWhile_cons, hd0]
    simp
  rw [hdw, hsplit.1, hsplit.2]
  simp only [List.isEmpty_cons, Bool.false_eq_true, if_false]
  cases fp with
  | none =>
    simp only [fracChars, List.nil_append]
    rw [hws, matchLowerLit_ms]
    simp
  | some ds =>
    obtain ⟨hds0, hdsd⟩ := hfp ds rfl
    obtain ⟨e, ds', rfl⟩ : ∃ e ds', ds = e :: ds' := by
      cases ds with
      | nil => exact absurd rfl hds0
      | cons e t => exact ⟨e, t, rfl⟩
    have hsplit2 := takeWhile_digits_append (e :: ds') (' ' :: 'm' :: 's' :: suffix)
      hdsd (by intro c hc; rw [← (by simpa using hc : ' ' = c)]; decide)
    simp only [fracChars, List.cons_append, List.append_assoc] at hsplit2 ⊢
    rw [hsplit2.1, hsplit2.2]
    simp only [List.isEmpty_cons, Bool.false_eq_true, if_false]
    rw [hws, matchLowerLit_ms]

theorem latSearch_of_matchAt {c : Char} {rest g : List Char}
    (h : latMatchAt (c :: rest) = some g) : latSearch (c :: rest) = some g := by
  rw [latSearch, h]

/-- C10: on an output of the shape `time` + separator + numeral + ` ms`,
`ping_once` reports the numeric literal captured after the separator —
parsed as written, regardless of whether the separator is `=` or `<`.
In particular `time<1 ms` yields latency `1.0`, not a value below one
millisecond. -/
theorem claim_C10_latency_capture (sep : Char) (ip : List Char) (fp : Option (List Char))
    (suffix : String) (rc : Int)
    (hsep : sep = '=' ∨ sep = '<') (hip : ip ≠ []) (hipd : ∀ c ∈ ip, c.isDigit = true)
    (hfp : ∀ ds, fp = some ds → ds ≠ [] ∧ ∀ c ∈ ds, c.isDigit = true) :
    pingOnce (RunResult.completed rc
        (String.mk ('t' :: 'i' :: 'm' :: 'e' :: sep ::
          (ip ++ fracChars fp ++ (' ' :: 'm' :: 's' :: suffix.data)))) "")
      = Except.ok (decide (rc = 0), some (ratOfCapture (ip ++ fracChars fp)), rc) := by
  have hm := latMatchAt_numeral sep ip fp (suffix.data ++ '\n' :: []) hsep hip hipd hfp
  have hdata : ((String.mk ('t' :: 'i' :: 'm' :: 'e' :: sep ::
      (ip ++ fracChars fp ++ (' ' :: 'm' :: 's' :: suffix.data))) ++ "\n" ++ "")).data
      = 't' :: 'i' :: 'm' :: 'e' :: sep ::
        (ip ++ fracChars fp ++ (' ' :: 'm' :: 's' :: (suffix.data ++ '\n' :: []))) := by
    show ('t' :: 'i' :: 'm' :: 'e' :: sep ::
        (ip ++ fracChars fp ++ (' ' :: 'm' :: 's' :: suffix.data))) ++ ('\n' :: []) ++ []
      = _
    simp [List.append_assoc]
  have hpo : pingOnce (RunResult.completed rc
      (String.mk ('t' :: 'i' :: 'm' :: 'e' :: sep ::
        (ip ++ fracChars fp ++ (' ' :: 'm' :: 's' :: suffix.data)))) "")
      = Except.ok (decide (rc = 0), Option.map ratOfCapture
          (latSearch ((String.mk ('t' :: 'i' :: 'm' :: 'e' :: sep ::
            (ip ++ fracChars fp ++ (' ' :: 'm' :: 's' :: suffix.data))) ++ "\n" ++ "").data)),
          rc) := rfl
  rw [hpo, hdata, latSearch_of_matchAt hm]
  rfl

/-- Witness for C10: the sub-millisecond notation `time<1 ms` is reported
as latency `1.0`. -/
theorem claim_C10_witness :
    pingOnce (RunResult.completed 0 "time<1 ms" "") = Except.ok (true, some 1, 0) := by
  have h := claim_C10_latency_capture '<' ['1'] none "" 0 (Or.inr rfl) (by decide)
    (by decide) (fun ds hds => by cases hds)
  have h2 : ratOfCapture (['1'] ++ fracChars none) = 1 := by decide
  rw [h2] at h
  exact h

example : pingOnce (.completed 0 "64 bytes: icmp_seq=1 ttl=64 time=12.5 ms" "")
    = .ok (true, some (mkRat 25 2), 0) := by decide

example : pingOnce (.completed 0 "Reply from 1.2.3.4: bytes=32 time<1ms TTL=128" "")
    = .ok (true, some 1, 0) := by decide

example : pingOnce .timedOut = .ok (false, none, 124) := by decide

example : pingOnce .launchFailure = .error .launchFailed := by decide

example :
    pingHost (fun _ _ _ => .timedOut) "h" 3 1000 "t"
      = .ok { host := "h", reachable := false, latency_ms := none,
              timestamp := "t", raw_exit := some 124, attempts := 3,
              successes := 0 } := by decide
